import Mathlib

/-!
Model of the USB image burn engine in `src/burn_engine.rs`.

The engine copies an ISO image onto a block device through a reader/writer
pipeline and optionally verifies the result by re-reading both sides.  The
development below is a shallow embedding: file contents are lists of bytes,
and the operating system together with the scheduler is represented by
explicit oracles (per-iteration read outcomes, write failures, the progress
throttle timer, the observed value of the shared cancellation flag).  Every
fallible step carries the error message the source would render with
`e.to_string()`.  Loops that walk a file are written with an explicit fuel
argument that strictly dominates the number of iterations the source loop
can perform (each iteration consumes at least one byte of the source), so
the wrappers that supply `src.length + 1` fuel compute exactly the source
behaviour while every definition stays executable.
-/

namespace BurnModel

/-- Bytes are modelled as natural numbers (`u8` values in the source). -/
abbrev Byte := Nat

/-- A data chunk handed from the reader stage to the writer stage. -/
abbrev Chunk := List Byte

/-- Fixed read buffer size, 8 MiB (`BUFFER_SIZE` in `burn_engine.rs`). -/
def BUFFER_SIZE : Nat := 8 * 1024 * 1024

/-- Depth of the internal data channel (`CHANNEL_DEPTH`).  It only bounds
memory use; it is not observable in the event stream, so the event model
does not consume it. -/
def CHANNEL_DEPTH : Nat := 4

/-- Capacity of the command channel created in `BurnEngine::new`. -/
def CMD_CAPACITY : Nat := 2

/-- Capacity of the event channel created in `BurnEngine::new`. -/
def EVENT_CAPACITY : Nat := 32

/-- Events emitted by the engine (`BurnEvent` in the source).  The
`speed_mbps` field is an `f64` computed from wall-clock timing in the
source; timing is outside the model, so the reported value is supplied by
the timing oracle and carried opaquely as a natural number. -/
inductive BurnEvent where
  | Preparing : BurnEvent
  | Progress (written total speed_mbps : Nat) : BurnEvent
  | Verifying (checked total : Nat) : BurnEvent
  | Finished : BurnEvent
  | Cancelled : BurnEvent
  | Error (msg : String) : BurnEvent
deriving DecidableEq

/-- Outcome of one `read` call, decided by the OS oracle: an I/O error
(carrying the message of `e.to_string()`), or success with a size hint.
The model caps the hint by the buffer size and by the bytes remaining in
the file, which is exactly the range `read` can return; a capped result of
`0` is the end-of-file case `Ok(0)`. -/
inductive ReadStep where
  | err (msg : String) : ReadStep
  | ok (hint : Nat) : ReadStep
deriving DecidableEq

/-- Outcome of one `write_all` call: success, or failure after `wrote`
bytes of the chunk reached the device. -/
inductive WriteStep where
  | ok : WriteStep
  | err (wrote : Nat) (msg : String) : WriteStep
deriving DecidableEq

/-- Environment oracle for one run of `verify_image`: the two `File::open`
outcomes, whether the fresh `fs::metadata` call succeeds (on failure the
source falls back to `unwrap_or(0)` for `total`), the observed cancellation
flag per iteration, and the two read oracles per iteration. -/
structure VerifyEnv where
  vIsoOpenErr : Option String
  vDevOpenErr : Option String
  vMetaOk : Bool
  vCancel : Nat → Bool
  vIsoRead : Nat → ReadStep
  vDevRead : Nat → ReadStep

/-- Environment of one `run_burn` call: the source image bytes, the device
content before the write, the three setup outcomes, the oracles of the
reader and writer loops, the flush (`sync_all`) outcome, the `verify`
configuration flag, and the verification-stage environment. -/
structure RunEnv where
  src : List Byte
  dest0 : List Byte
  metaErr : Option String
  isoOpenErr : Option String
  devOpenErr : Option String
  readerCancel : Nat → Bool
  readerRead : Nat → ReadStep
  writerCancel : Nat → Bool
  writeStep : Nat → WriteStep
  tick : Nat → Bool
  speed : Nat → Nat
  syncErr : Option String
  verify : Bool
  vEnv : VerifyEnv

/-- The reader loop of `run_burn`: check the cancellation flag, read up to
`BUFFER_SIZE` bytes at the current position, stop on `Ok(0)` or on a read
error (silently, emitting nothing), otherwise send the truncated buffer and
continue.  The reader owns no event channel in the source, so its only
output is the list of chunks it managed to send. -/
def readerGo (src : List Byte) (cancel : Nat → Bool) (reads : Nat → ReadStep) :
    Nat → Nat → Nat → List Chunk
  | 0, _, _ => []
  | fuel + 1, pos, i =>
    if cancel i then []
    else
      match reads i with
      | .err _ => []
      | .ok hint =>
        let k := min (min hint BUFFER_SIZE) (src.length - pos)
        if k = 0 then []
        else (src.drop pos).take k :: readerGo src cancel reads fuel (pos + k) (i + 1)

/-- Result of the writer loop: the events it emitted, whether the data
channel was drained to its close (`done = true`) or the loop aborted with a
terminal event, the final value of the `written` counter, and the bytes
that actually reached the device. -/
structure WriterResult where
  events : List BurnEvent
  done : Bool
  written : Nat
  bytes : List Byte

/-- The writer loop of `run_burn`: for each received chunk, first check the
cancellation flag (emit `Cancelled` and abort), then `write_all` the chunk
(on failure emit `Error` and abort; a failing write may still have pushed a
prefix of the chunk to the device), then bump `written` and, when the
100 ms throttle oracle fires, emit one `Progress` event. -/
def writerGo (total : Nat) (cancel : Nat → Bool) (ws : Nat → WriteStep)
    (tick : Nat → Bool) (speed : Nat → Nat) :
    List Chunk → Nat → Nat → WriterResult
  | [], written, _ => ⟨[], true, written, []⟩
  | c :: cs, written, i =>
    if cancel i then ⟨[.Cancelled], false, written, []⟩
    else
      match ws i with
      | .err wrote m => ⟨[.Error m], false, written, c.take wrote⟩
      | .ok =>
        let w := written + c.length
        let r := writerGo total cancel ws tick speed cs w (i + 1)
        ⟨(if tick i then [.Progress w total (speed i)] else []) ++ r.events,
          r.done, r.written, c ++ r.bytes⟩

/-- The verification loop of `verify_image`: per iteration check the
cancellation flag, read a source chunk (`Ok(0)` ends the loop with
success), read the same number of bytes back from the device, and compare
byte count and content; any mismatch aborts with `Error("Verification
failed")`, otherwise one `Verifying` event is emitted with the cumulative
`checked` counter. -/
def verifyGo (src dest : List Byte) (e : VerifyEnv) :
    Nat → Nat → Nat → Nat → Nat → Nat → List BurnEvent × Bool
  | 0, _, _, _, _, _ => ([], true)
  | fuel + 1, spos, dpos, checked, total, i =>
    if e.vCancel i then ([.Cancelled], false)
    else
      match e.vIsoRead i with
      | .err m => ([.Error m], false)
      | .ok hint =>
        let n1 := min (min hint BUFFER_SIZE) (src.length - spos)
        if n1 = 0 then ([], true)
        else
          match e.vDevRead i with
          | .err m => ([.Error m], false)
          | .ok hint2 =>
            let n2 := min (min hint2 n1) (dest.length - dpos)
            if n1 ≠ n2 ∨ (src.drop spos).take n1 ≠ (dest.drop dpos).take n2 then
              ([.Error ("Verification failed")], false)
            else
              let out := verifyGo src dest e fuel (spos + n1) (dpos + n2) (checked + n1) total (i + 1)
              (.Verifying (checked + n1) total :: out.1, out.2)

/-- `verify_image`: re-open both files (each failure is its own `Error`
event), re-measure `total` with `metadata(..).map(len).unwrap_or(0)`, and
run the comparison loop from the start of both files. -/
def verifyImage (src dest : List Byte) (e : VerifyEnv) : List BurnEvent × Bool :=
  match e.vIsoOpenErr with
  | some m => ([.Error m], false)
  | none =>
    match e.vDevOpenErr with
    | some m => ([.Error m], false)
    | none =>
      verifyGo src dest e (src.length + 1) 0 0 0 (if e.vMetaOk then src.length else 0) 0

/-- Chunks the reader thread of `run_burn` sends for a given environment. -/
def readerChunks (env : RunEnv) : List Chunk :=
  readerGo env.src env.readerCancel env.readerRead (env.src.length + 1) 0 0

/-- Writer-loop result of `run_burn` for a given environment; `total` is the
source size measured by the `fs::metadata` call at operation start. -/
def writerResult (env : RunEnv) : WriterResult :=
  writerGo env.src.length env.writerCancel env.writeStep env.tick env.speed (readerChunks env) 0 0

/-- Device content after writing `bytes` sequentially from offset zero over
the previous content (the device is opened for writing without truncation). -/
def destAfter (dest0 bytes : List Byte) : List Byte :=
  bytes ++ dest0.drop bytes.length

/-- Device content once the writer loop of `run_burn` has finished or
aborted. -/
def destWritten (env : RunEnv) : List Byte :=
  destAfter env.dest0 (writerResult env).bytes

/-- The whole of `run_burn`: emit `Preparing`, resolve the three setup
steps (each failure emits `Error` and returns), run the reader/writer
pipeline, and on a drained channel flush the device (`sync_all`) and
optionally verify before emitting the final `Finished`.  The second
component is the device content when the call returns. -/
def runBurnFull (env : RunEnv) : List BurnEvent × List Byte :=
  match env.metaErr with
  | some m => ([.Preparing, .Error m], env.dest0)
  | none =>
    match env.isoOpenErr with
    | some m => ([.Preparing, .Error m], env.dest0)
    | none =>
      match env.devOpenErr with
      | some m => ([.Preparing, .Error m], env.dest0)
      | none =>
        let r := writerResult env
        let dest1 := destWritten env
        if r.done then
          match env.syncErr with
          | some m => (.Preparing :: r.events ++ [.Error m], dest1)
          | none =>
            if env.verify then
              let v := verifyImage env.src dest1 env.vEnv
              if v.2 then (.Preparing :: r.events ++ v.1 ++ [.Finished], dest1)
              else (.Preparing :: r.events ++ v.1, dest1)
            else (.Preparing :: r.events ++ [.Finished], dest1)
        else (.Preparing :: r.events, dest1)

/-- Terminal events: `Finished`, `Cancelled`, `Error`. -/
def isTerminal : BurnEvent → Bool
  | .Finished => true
  | .Cancelled => true
  | .Error _ => true
  | _ => false

/-- Recogniser for `Verifying` events. -/
def isVerifying : BurnEvent → Bool
  | .Verifying _ _ => true
  | _ => false

/-- Projection extracting the `written` and `total` fields of a `Progress`
event. -/
def progressOf : BurnEvent → Option (Nat × Nat)
  | .Progress w t _ => some (w, t)
  | _ => none

/-- Total number of bytes in a list of chunks. -/
def sumLens (l : List Chunk) : Nat := (l.map List.length).sum

/-- Number of `BUFFER_SIZE` chunks covering `n` bytes (the last chunk may
be short). -/
def numChunks (n : Nat) : Nat := (n + BUFFER_SIZE - 1) / BUFFER_SIZE

/-- The `Verifying` events produced by successive successful comparisons of
chunks of sizes `ns`, starting from an already-checked byte count. -/
def cumulEvents (checked : Nat) (ns : List Nat) (total : Nat) : List BurnEvent :=
  match ns with
  | [] => []
  | n :: rest => .Verifying (checked + n) total :: cumulEvents (checked + n) rest total

/-- The destination differs from the source at byte offset `k` within the
source's length: either the destination has no byte there or the bytes
disagree. -/
def diffAt (src dest : List Byte) (k : Nat) : Prop :=
  k < src.length ∧ src[k]? ≠ dest[k]?

instance (src dest : List Byte) (k : Nat) : Decidable (diffAt src dest k) := by
  unfold diffAt
  exact inferInstance

/-- A list of chunks is a sequence of consecutive slices of `src` starting
at `pos`; every chunk list the reader can produce satisfies this. -/
inductive ChunksFrom (src : List Byte) : Nat → List Chunk → Prop where
  | nil (pos : Nat) : ChunksFrom src pos []
  | cons (pos k : Nat) (rest : List Chunk) (hk : 0 < k) (hle : pos + k ≤ src.length)
      (h : ChunksFrom src (pos + k) rest) :
      ChunksFrom src pos ((src.drop pos).take k :: rest)

/-- Commands of the supervisor thread spawned in `BurnEngine::new`. -/
inductive EngineCommand where
  | start (env : RunEnv) : EngineCommand
  | cancel : EngineCommand

/-- During a `Start` the supervisor thread itself executes `run_burn`, and
it is the only thread that ever stores to the cancellation flag; the
`store(false)` performed at `Start` therefore pins the flag at `false` for
the whole run, which is what replacing the three cancellation oracles by
the constantly-false oracle expresses. -/
def noCancelRun (env : RunEnv) : RunEnv :=
  { env with
    readerCancel := fun _ => false
    writerCancel := fun _ => false
    vEnv := { env.vEnv with vCancel := fun _ => false } }

/-- One iteration of the supervisor loop: `Start` stores `false` to the
flag and runs `run_burn` synchronously; `Cancel` stores `true` and emits
nothing. -/
def superStep (_flag : Bool) : EngineCommand → Bool × List BurnEvent
  | .start env => (false, (runBurnFull (noCancelRun env)).1)
  | .cancel => (true, [])

/-- The supervisor loop: process queued commands in order, threading the
cancellation flag, concatenating the emitted events. -/
def superRun : List EngineCommand → Bool → List BurnEvent
  | [], _ => []
  | c :: cs, flag => (superStep flag c).2 ++ superRun cs (superStep flag c).1

/-- Possible behaviours of a bounded-channel send for the caller. -/
inductive SendOutcome where
  | delivered : SendOutcome
  | blocked : SendOutcome
  | dropped : SendOutcome
deriving DecidableEq

/-- Behaviour of `crossbeam_channel::Sender::send` on the bounded command
channel, as invoked by `BurnEngine::start` and `BurnEngine::cancel`: with a
live receiver it enqueues when there is room and otherwise blocks the
calling thread until room appears; with a disconnected receiver it returns
an error, which both callers discard (`let _ = ...`), so the message is
silently dropped. -/
def commandSend (connected : Bool) (queue : List EngineCommand) (msg : EngineCommand) :
    SendOutcome × List EngineCommand :=
  if connected then
    if queue.length < CMD_CAPACITY then (.delivered, queue ++ [msg])
    else (.blocked, queue)
  else (.dropped, queue)

/-- `BurnEngine::start`: send `BurnCommand::Start(cfg)` on the command
channel, discarding any send error. -/
def engineStart (connected : Bool) (queue : List EngineCommand) (env : RunEnv) :
    SendOutcome × List EngineCommand :=
  commandSend connected queue (.start env)

/-- `BurnEngine::cancel`: send `BurnCommand::Cancel` on the command
channel, discarding any send error. -/
def engineCancel (connected : Bool) (queue : List EngineCommand) :
    SendOutcome × List EngineCommand :=
  commandSend connected queue .cancel

/-- Verification environment in which every OS interaction succeeds and the
cancellation flag is never observed true. -/
def nomVerifyEnv : VerifyEnv :=
  { vIsoOpenErr := none
    vDevOpenErr := none
    vMetaOk := true
    vCancel := fun _ => false
    vIsoRead := fun _ => .ok BUFFER_SIZE
    vDevRead := fun _ => .ok BUFFER_SIZE }

/-- Nominal verification environment except that the fresh `fs::metadata`
call at the start of `verify_image` fails, so `total` falls back to `0`. -/
def metaFailVerifyEnv : VerifyEnv :=
  { nomVerifyEnv with vMetaOk := false }

/-- A run environment in which every OS interaction succeeds. -/
def baseEnv : RunEnv :=
  { src := []
    dest0 := []
    metaErr := none
    isoOpenErr := none
    devOpenErr := none
    readerCancel := fun _ => false
    readerRead := fun _ => .ok BUFFER_SIZE
    writerCancel := fun _ => false
    writeStep := fun _ => .ok
    tick := fun _ => false
    speed := fun _ => 0
    syncErr := none
    verify := false
    vEnv := nomVerifyEnv }

/-- Concrete verified burn: two source bytes onto a three-byte device. -/
def envC2 : RunEnv :=
  { baseEnv with src := [5, 6], dest0 := [0, 0, 0], verify := true }

/-- Concrete run where the reader hits an I/O error after one byte, so the
device ends up holding a strict prefix of the source and verification finds
a mismatch at offset 1. -/
def envC3 : RunEnv :=
  { baseEnv with
    src := [1, 2]
    dest0 := [9, 9]
    verify := true
    readerRead := fun i => if i = 0 then .ok 1 else .err ("disk read error") }

/-- Concrete run whose writer observes the cancellation flag on its first
chunk. -/
def envC4 : RunEnv :=
  { baseEnv with src := [1, 2, 3], writerCancel := fun _ => true, verify := true }

/-- Concrete run whose reader errors immediately; the writer then drains a
closed, empty channel and completes normally. -/
def envC9 : RunEnv :=
  { baseEnv with src := [1, 2], readerRead := fun _ => .err ("io") }

lemma BUFFER_SIZE_pos : 0 < BUFFER_SIZE := by decide

lemma numChunks_zero : numChunks 0 = 0 := by
  unfold numChunks
  decide

lemma numChunks_pos {n : Nat} (h : 0 < n) :
    numChunks n = numChunks (n - BUFFER_SIZE) + 1 := by
  unfold numChunks
  rcases Nat.le_total n BUFFER_SIZE with hn | hn
  · have h1 : n - BUFFER_SIZE = 0 := by omega
    rw [h1]
    have h2 : (0 + BUFFER_SIZE - 1) / BUFFER_SIZE = 0 :=
      Nat.div_eq_of_lt (by have := BUFFER_SIZE_pos; omega)
    rw [h2]
    exact Nat.div_eq_of_lt_le (by have := BUFFER_SIZE_pos; omega)
      (by have := BUFFER_SIZE_pos; omega)
  · have h1 : n + BUFFER_SIZE - 1 = (n - BUFFER_SIZE + BUFFER_SIZE - 1) + BUFFER_SIZE := by
      have := BUFFER_SIZE_pos; omega
    rw [h1, Nat.add_div_right _ BUFFER_SIZE_pos]

lemma cumulEvents_mem {checked total : Nat} {ns : List Nat} {e : BurnEvent}
    (h : e ∈ cumulEvents checked ns total) : ∃ c, e = .Verifying c total := by
  induction ns generalizing checked with
  | nil => simp [cumulEvents] at h
  | cons n rest ih =>
    simp only [cumulEvents, List.mem_cons] at h
    rcases h with h | h
    · exact ⟨checked + n, h⟩
    · exact ih h

lemma chunksFrom_sumLens {src : List Byte} {pos : Nat} {l : List Chunk}
    (h : ChunksFrom src pos l) : sumLens l ≤ src.length - pos := by
  induction h with
  | nil => simp [sumLens]
  | cons pos k rest hk hle h ih =>
    have hlen : ((src.drop pos).take k).length = k := by
      simp [List.length_take, List.length_drop]
      omega
    simp only [sumLens, List.map_cons, List.sum_cons, hlen] at *
    omega

lemma chunksFrom_take {src : List Byte} {pos : Nat} {l : List Chunk}
    (h : ChunksFrom src pos l) (n : Nat) : ChunksFrom src pos (l.take n) := by
  induction h generalizing n with
  | nil => simpa using ChunksFrom.nil _
  | cons pos k rest hk hle h ih =>
    cases n with
    | zero => exact .nil pos
    | succ n =>
      simpa using ChunksFrom.cons pos k (rest.take n) hk hle (ih n)

lemma chunksFrom_flatten {src : List Byte} {pos : Nat} {l : List Chunk}
    (h : ChunksFrom src pos l) : l.flatten = (src.drop pos).take (sumLens l) := by
  induction h with
  | nil => simp [sumLens]
  | cons pos k rest hk hle h ih =>
    have hlen : ((src.drop pos).take k).length = k := by
      simp [List.length_take, List.length_drop]
      omega
    simp only [List.flatten_cons, sumLens, List.map_cons, List.sum_cons] at *
    rw [ih, hlen, List.take_add, List.drop_drop]

lemma readerGo_chunksFrom (src : List Byte) (cancel : Nat → Bool) (reads : Nat → ReadStep)
    (fuel : Nat) : ∀ (pos i : Nat), ChunksFrom src pos (readerGo src cancel reads fuel pos i) := by
  induction fuel with
  | zero => intro pos i; exact .nil pos
  | succ fuel ih =>
    intro pos i
    simp only [readerGo]
    split
    · exact .nil pos
    · split
      · exact .nil pos
      · split
        · exact .nil pos
        · exact ChunksFrom.cons pos _ _ (by omega) (by omega) (ih _ _)

lemma readerChunks_chunksFrom (env : RunEnv) : ChunksFrom env.src 0 (readerChunks env) :=
  readerGo_chunksFrom _ _ _ _ 0 0

lemma readerGo_nominal_flatten (src : List Byte) (cancel : Nat → Bool) (reads : Nat → ReadStep)
    (hc : ∀ k, cancel k = false) (hr : ∀ k, reads k = .ok BUFFER_SIZE) (fuel : Nat) :
    ∀ (pos i : Nat), src.length - pos < fuel →
      (readerGo src cancel reads fuel pos i).flatten = src.drop pos := by
  induction fuel with
  | zero => intro pos i h; omega
  | succ fuel ih =>
    intro pos i hfuel
    simp only [readerGo, hc, hr, Nat.min_self, Bool.false_eq_true, if_false]
    have hB := BUFFER_SIZE_pos
    by_cases hpos : src.length ≤ pos
    · have h0 : src.length - pos = 0 := by omega
      rw [List.drop_eq_nil_of_le hpos]
      simp [h0]
    · have hmin2 : min BUFFER_SIZE (src.length - pos) ≤ src.length - pos :=
        Nat.min_le_right _ _
      have hmin1 : 0 < min BUFFER_SIZE (src.length - pos) := by
        rcases Nat.le_total BUFFER_SIZE (src.length - pos) with hbc | hbc
        · rw [Nat.min_eq_left hbc]
          omega
        · rw [Nat.min_eq_right hbc]
          omega
      generalize hM : min BUFFER_SIZE (src.length - pos) = M at hmin1 hmin2 ⊢
      rw [if_neg (by omega)]
      simp only [List.flatten_cons]
      rw [ih (pos + M) (i + 1) (by omega)]
      rw [← List.drop_drop]
      exact List.take_append_drop _ _

lemma readerGo_err_eq_eof (src : List Byte) (cancel : Nat → Bool) (reads : Nat → ReadStep)
    (j : Nat) (m : String) (hj : reads j = .err m) (fuel : Nat) :
    ∀ (pos i : Nat),
      readerGo src cancel (fun k => if k = j then .ok 0 else reads k) fuel pos i =
        readerGo src cancel reads fuel pos i := by
  induction fuel with
  | zero => intro pos i; rfl
  | succ fuel ih =>
    intro pos i
    simp only [readerGo]
    split
    · rfl
    · by_cases hij : i = j
      · subst hij
        rw [hj]
        simp
      · simp only [if_neg hij]
        split
        · rfl
        · rw [ih]

lemma writerGo_nil (total : Nat) (cancel : Nat → Bool) (ws : Nat → WriteStep)
    (tick : Nat → Bool) (speed : Nat → Nat) (written i : Nat) :
    writerGo total cancel ws tick speed [] written i = ⟨[], true, written, []⟩ := rfl

lemma writerGo_cons_cancel (total : Nat) (cancel : Nat → Bool) (ws : Nat → WriteStep)
    (tick : Nat → Bool) (speed : Nat → Nat) (c : Chunk) (cs : List Chunk) (written i : Nat)
    (hc : cancel i = true) :
    writerGo total cancel ws tick speed (c :: cs) written i =
      ⟨[.Cancelled], false, written, []⟩ := by
  rw [writerGo, if_pos hc]

lemma writerGo_cons_err (total : Nat) (cancel : Nat → Bool) (ws : Nat → WriteStep)
    (tick : Nat → Bool) (speed : Nat → Nat) (c : Chunk) (cs : List Chunk) (written i : Nat)
    (wrote : Nat) (m : String) (hc : cancel i = false) (hw : ws i = .err wrote m) :
    writerGo total cancel ws tick speed (c :: cs) written i =
      ⟨[.Error m], false, written, c.take wrote⟩ := by
  rw [writerGo, if_neg (by simp [hc]), hw]

lemma writerGo_cons_ok (total : Nat) (cancel : Nat → Bool) (ws : Nat → WriteStep)
    (tick : Nat → Bool) (speed : Nat → Nat) (c : Chunk) (cs : List Chunk) (written i : Nat)
    (hc : cancel i = false) (hw : ws i = .ok) :
    writerGo total cancel ws tick speed (c :: cs) written i =
      ⟨(if tick i then [.Progress (written + c.length) total (speed i)] else []) ++
          (writerGo total cancel ws tick speed cs (written + c.length) (i + 1)).events,
        (writerGo total cancel ws tick speed cs (written + c.length) (i + 1)).done,
        (writerGo total cancel ws tick speed cs (written + c.length) (i + 1)).written,
        c ++ (writerGo total cancel ws tick speed cs (written + c.length) (i + 1)).bytes⟩ := by
  rw [writerGo, if_neg (by simp [hc]), hw]

lemma writerGo_done_events (total : Nat) (cancel : Nat → Bool) (ws : Nat → WriteStep)
    (tick : Nat → Bool) (speed : Nat → Nat) :
    ∀ (chunks : List Chunk) (written i : Nat),
      (writerGo total cancel ws tick speed chunks written i).done = true →
      ∀ e ∈ (writerGo total cancel ws tick speed chunks written i).events,
        ∃ w t s, e = .Progress w t s := by
  intro chunks
  induction chunks with
  | nil =>
    intro written i _ e he
    simp [writerGo_nil] at he
  | cons c cs ih =>
    intro written i hdone e he
    by_cases hcan : cancel i = true
    · rw [writerGo_cons_cancel _ _ _ _ _ _ _ _ _ hcan] at hdone
      simp at hdone
    · have hcf : cancel i = false := by simp at hcan; exact hcan
      cases hws : ws i with
      | err wrote m =>
        rw [writerGo_cons_err _ _ _ _ _ _ _ _ _ _ _ hcf hws] at hdone
        simp at hdone
      | ok =>
        rw [writerGo_cons_ok _ _ _ _ _ _ _ _ _ hcf hws] at hdone he
        rcases List.mem_append.mp he with h | h
        · by_cases ht : tick i = true
          · simp [ht] at h
            exact ⟨_, _, _, h⟩
          · simp [ht] at h
        · exact ih _ _ hdone e h

lemma writerGo_abort_shape (total : Nat) (cancel : Nat → Bool) (ws : Nat → WriteStep)
    (tick : Nat → Bool) (speed : Nat → Nat) :
    ∀ (chunks : List Chunk) (written i : Nat),
      (writerGo total cancel ws tick speed chunks written i).done = false →
      ∃ front t,
        (writerGo total cancel ws tick speed chunks written i).events = front ++ [t] ∧
        (∀ e ∈ front, ∃ w tt s, e = .Progress w tt s) ∧
        (t = .Cancelled ∨ ∃ m, t = .Error m) := by
  intro chunks
  induction chunks with
  | nil =>
    intro written i hdone
    simp [writerGo_nil] at hdone
  | cons c cs ih =>
    intro written i hdone
    by_cases hcan : cancel i = true
    · rw [writerGo_cons_cancel _ _ _ _ _ _ _ _ _ hcan]
      exact ⟨[], .Cancelled, by simp, by simp, Or.inl rfl⟩
    · have hcf : cancel i = false := by simp at hcan; exact hcan
      cases hws : ws i with
      | err wrote m =>
        rw [writerGo_cons_err _ _ _ _ _ _ _ _ _ _ _ hcf hws]
        exact ⟨[], .Error m, by simp, by simp, Or.inr ⟨m, rfl⟩⟩
      | ok =>
        rw [writerGo_cons_ok _ _ _ _ _ _ _ _ _ hcf hws] at hdone ⊢
        obtain ⟨front, t, hev, hfr, ht⟩ := ih _ _ hdone
        refine ⟨(if tick i then
            [.Progress (written + c.length) total (speed i)] else []) ++ front, t, ?_, ?_, ht⟩
        · simp only [hev, List.append_assoc]
        · intro e he
          rcases List.mem_append.mp he with h | h
          · by_cases htk : tick i = true
            · simp [htk] at h
              exact ⟨_, _, _, h⟩
            · simp [htk] at h
          · exact hfr e h

lemma writerGo_all_ok (total : Nat) (cancel : Nat → Bool) (ws : Nat → WriteStep)
    (tick : Nat → Bool) (speed : Nat → Nat)
    (hc : ∀ k, cancel k = false) (hw : ∀ k, ws k = .ok) :
    ∀ (chunks : List Chunk) (written i : Nat),
      (writerGo total cancel ws tick speed chunks written i).done = true ∧
      (writerGo total cancel ws tick speed chunks written i).bytes = chunks.flatten := by
  intro chunks
  induction chunks with
  | nil =>
    intro written i
    simp [writerGo_nil]
  | cons c cs ih =>
    intro written i
    rw [writerGo_cons_ok _ _ _ _ _ _ _ _ _ (hc i) (hw i)]
    obtain ⟨h1, h2⟩ := ih (written + c.length) (i + 1)
    exact ⟨h1, by rw [List.flatten_cons, ← h2]⟩

lemma writerGo_progress (total : Nat) (cancel : Nat → Bool) (ws : Nat → WriteStep)
    (tick : Nat → Bool) (speed : Nat → Nat) :
    ∀ (chunks : List Chunk) (written i : Nat), written + sumLens chunks ≤ total →
      List.Chain' (fun a b => a.1 ≤ b.1)
        ((writerGo total cancel ws tick speed chunks written i).events.filterMap progressOf) ∧
      ∀ p ∈ (writerGo total cancel ws tick speed chunks written i).events.filterMap progressOf,
        written ≤ p.1 ∧ p.1 ≤ total ∧ p.2 = total := by
  intro chunks
  induction chunks with
  | nil =>
    intro written i hle
    simp [writerGo_nil]
  | cons c cs ih =>
    intro written i hle
    have hsum : sumLens (c :: cs) = c.length + sumLens cs := by
      simp [sumLens]
    by_cases hcan : cancel i = true
    · rw [writerGo_cons_cancel _ _ _ _ _ _ _ _ _ hcan]
      simp [progressOf]
    · have hcf : cancel i = false := by simp at hcan; exact hcan
      cases hws : ws i with
      | err wrote m =>
        rw [writerGo_cons_err _ _ _ _ _ _ _ _ _ _ _ hcf hws]
        simp [progressOf]
      | ok =>
        rw [writerGo_cons_ok _ _ _ _ _ _ _ _ _ hcf hws]
        obtain ⟨hch, hbd⟩ := ih (written + c.length) (i + 1) (by omega)
        by_cases htk : tick i = true
        · simp only [htk, if_true, List.filterMap_append, List.filterMap_cons, progressOf,
            List.filterMap_nil, List.singleton_append, List.nil_append]
          constructor
          · rw [List.chain'_cons']
            refine ⟨?_, hch⟩
            intro b hb
            exact (hbd b (List.mem_of_mem_head? hb)).1
          · intro p hp
            rcases List.mem_cons.mp hp with h | h
            · cases h
              exact ⟨Nat.le_add_right _ _, show written + c.length ≤ total by omega, rfl⟩
            · have h2 := hbd p h
              exact ⟨by omega, h2.2.1, h2.2.2⟩
        · have htf : tick i = false := by simp at htk; exact htk
          simp only [htf, Bool.false_eq_true, if_false, List.nil_append]
          refine ⟨hch, ?_⟩
          intro p hp
          have h2 := hbd p hp
          exact ⟨by omega, h2.2.1, h2.2.2⟩

lemma writerGo_cancel_at (total : Nat) (cancel : Nat → Bool) (ws : Nat → WriteStep)
    (tick : Nat → Bool) (speed : Nat → Nat) :
    ∀ (j : Nat) (chunks : List Chunk) (written i : Nat),
      (∀ k, k < j → cancel (i + k) = false ∧ ws (i + k) = .ok) →
      cancel (i + j) = true →
      j < chunks.length →
      (writerGo total cancel ws tick speed chunks written i).done = false ∧
      (writerGo total cancel ws tick speed chunks written i).bytes = (chunks.take j).flatten ∧
      ∃ front,
        (writerGo total cancel ws tick speed chunks written i).events = front ++ [.Cancelled] ∧
        ∀ e ∈ front, ∃ w t s, e = .Progress w t s := by
  intro j
  induction j with
  | zero =>
    intro chunks written i hb hc hlen
    cases chunks with
    | nil => simp at hlen
    | cons c cs =>
      rw [Nat.add_zero] at hc
      rw [writerGo_cons_cancel _ _ _ _ _ _ _ _ _ hc]
      exact ⟨rfl, by simp, [], by simp, by simp⟩
  | succ j ih =>
    intro chunks written i hb hc hlen
    cases chunks with
    | nil => simp at hlen
    | cons c cs =>
      have h0 := hb 0 (by omega)
      rw [Nat.add_zero] at h0
      have hb2 : ∀ k, k < j → cancel (i + 1 + k) = false ∧ ws (i + 1 + k) = .ok := by
        intro k hk
        have h3 := hb (k + 1) (by omega)
        rwa [show i + (k + 1) = i + 1 + k by omega] at h3
      have hc2 : cancel (i + 1 + j) = true := by
        rwa [show i + (j + 1) = i + 1 + j by omega] at hc
      obtain ⟨hd, hby, front, hev, hfr⟩ :=
        ih cs (written + c.length) (i + 1) hb2 hc2 (by simp at hlen; omega)
      rw [writerGo_cons_ok _ _ _ _ _ _ _ _ _ h0.1 h0.2]
      refine ⟨hd, ?_, ?_⟩
      · rw [List.take_succ_cons, List.flatten_cons, hby]
      · refine ⟨(if tick i then
            [.Progress (written + c.length) total (speed i)] else []) ++ front, ?_, ?_⟩
        · simp only [hev, List.append_assoc]
        · intro e he
          rcases List.mem_append.mp he with h | h
          · by_cases htk : tick i = true
            · simp [htk] at h
              exact ⟨_, _, _, h⟩
            · simp [htk] at h
          · exact hfr e h

lemma verifyGo_zero (src dest : List Byte) (e : VerifyEnv) (spos dpos checked total i : Nat) :
    verifyGo src dest e 0 spos dpos checked total i = ([], true) := rfl

lemma verifyGo_step_cancel (src dest : List Byte) (e : VerifyEnv)
    (fuel spos dpos checked total i : Nat) (hc : e.vCancel i = true) :
    verifyGo src dest e (fuel + 1) spos dpos checked total i = ([.Cancelled], false) := by
  rw [verifyGo, if_pos hc]

lemma verifyGo_step_isoErr (src dest : List Byte) (e : VerifyEnv)
    (fuel spos dpos checked total i : Nat) (m : String)
    (hc : e.vCancel i = false) (hr : e.vIsoRead i = .err m) :
    verifyGo src dest e (fuel + 1) spos dpos checked total i = ([.Error m], false) := by
  rw [verifyGo, if_neg (by simp [hc]), hr]

lemma verifyGo_step_eof (src dest : List Byte) (e : VerifyEnv)
    (fuel spos dpos checked total i hint : Nat)
    (hc : e.vCancel i = false) (hr : e.vIsoRead i = .ok hint)
    (h0 : min (min hint BUFFER_SIZE) (src.length - spos) = 0) :
    verifyGo src dest e (fuel + 1) spos dpos checked total i = ([], true) := by
  rw [verifyGo, if_neg (by simp [hc]), hr]
  simp [h0]

lemma verifyGo_step_devErr (src dest : List Byte) (e : VerifyEnv)
    (fuel spos dpos checked total i hint n1 : Nat) (m : String)
    (hc : e.vCancel i = false) (hr : e.vIsoRead i = .ok hint)
    (hn1 : min (min hint BUFFER_SIZE) (src.length - spos) = n1) (h1 : n1 ≠ 0)
    (hr2 : e.vDevRead i = .err m) :
    verifyGo src dest e (fuel + 1) spos dpos checked total i = ([.Error m], false) := by
  rw [verifyGo, if_neg (by simp [hc]), hr]
  simp only [hn1, if_neg h1, hr2]

lemma verifyGo_step_mismatch (src dest : List Byte) (e : VerifyEnv)
    (fuel spos dpos checked total i hint hint2 n1 n2 : Nat)
    (hc : e.vCancel i = false) (hr : e.vIsoRead i = .ok hint)
    (hn1 : min (min hint BUFFER_SIZE) (src.length - spos) = n1) (h1 : n1 ≠ 0)
    (hr2 : e.vDevRead i = .ok hint2)
    (hn2 : min (min hint2 n1) (dest.length - dpos) = n2)
    (hbad : n1 ≠ n2 ∨ (src.drop spos).take n1 ≠ (dest.drop dpos).take n2) :
    verifyGo src dest e (fuel + 1) spos dpos checked total i =
      ([.Error ("Verification failed")], false) := by
  rw [verifyGo, if_neg (by simp [hc]), hr]
  simp only [hn1, if_neg h1, hr2, hn2, if_pos hbad]

lemma verifyGo_step_match (src dest : List Byte) (e : VerifyEnv)
    (fuel spos dpos checked total i hint hint2 n1 n2 : Nat)
    (hc : e.vCancel i = false) (hr : e.vIsoRead i = .ok hint)
    (hn1 : min (min hint BUFFER_SIZE) (src.length - spos) = n1) (h1 : n1 ≠ 0)
    (hr2 : e.vDevRead i = .ok hint2)
    (hn2 : min (min hint2 n1) (dest.length - dpos) = n2)
    (hgood : ¬(n1 ≠ n2 ∨ (src.drop spos).take n1 ≠ (dest.drop dpos).take n2)) :
    verifyGo src dest e (fuel + 1) spos dpos checked total i =
      (.Verifying (checked + n1) total ::
          (verifyGo src dest e fuel (spos + n1) (dpos + n2) (checked + n1) total (i + 1)).1,
        (verifyGo src dest e fuel (spos + n1) (dpos + n2) (checked + n1) total (i + 1)).2) := by
  rw [verifyGo, if_neg (by simp [hc]), hr]
  simp only [hn1, if_neg h1, hr2, hn2, if_neg hgood]

lemma verifyGo_shape (src dest : List Byte) (e : VerifyEnv) :
    ∀ (fuel spos dpos checked total i : Nat),
      ∃ ns rest,
        (verifyGo src dest e fuel spos dpos checked total i).1 =
          cumulEvents checked ns total ++ rest ∧
        (∀ n ∈ ns, 0 < n ∧ n ≤ BUFFER_SIZE) ∧
        (((verifyGo src dest e fuel spos dpos checked total i).2 = true ∧ rest = []) ∨
          ((verifyGo src dest e fuel spos dpos checked total i).2 = false ∧
            ∃ t, rest = [t] ∧ (t = .Cancelled ∨ ∃ m, t = .Error m))) := by
  intro fuel
  induction fuel with
  | zero =>
    intro spos dpos checked total i
    exact ⟨[], [], by simp [verifyGo_zero, cumulEvents], by simp,
      Or.inl ⟨rfl, rfl⟩⟩
  | succ fuel ih =>
    intro spos dpos checked total i
    by_cases hcan : e.vCancel i = true
    · rw [verifyGo_step_cancel _ _ _ _ _ _ _ _ _ hcan]
      exact ⟨[], [.Cancelled], by simp [cumulEvents], by simp,
        Or.inr ⟨rfl, .Cancelled, rfl, Or.inl rfl⟩⟩
    · have hcf : e.vCancel i = false := by simp at hcan; exact hcan
      cases hr : e.vIsoRead i with
      | err m =>
        rw [verifyGo_step_isoErr _ _ _ _ _ _ _ _ _ _ hcf hr]
        exact ⟨[], [.Error m], by simp [cumulEvents], by simp,
          Or.inr ⟨rfl, .Error m, rfl, Or.inr ⟨m, rfl⟩⟩⟩
      | ok hint =>
        by_cases h0 : min (min hint BUFFER_SIZE) (src.length - spos) = 0
        · rw [verifyGo_step_eof _ _ _ _ _ _ _ _ _ _ hcf hr h0]
          exact ⟨[], [], by simp [cumulEvents], by simp, Or.inl ⟨rfl, rfl⟩⟩
        · cases hr2 : e.vDevRead i with
          | err m =>
            rw [verifyGo_step_devErr _ _ _ _ _ _ _ _ _ _ _ _ hcf hr rfl h0 hr2]
            exact ⟨[], [.Error m], by simp [cumulEvents], by simp,
              Or.inr ⟨rfl, .Error m, rfl, Or.inr ⟨m, rfl⟩⟩⟩
          | ok hint2 =>
            by_cases hbad : min (min hint BUFFER_SIZE) (src.length - spos) ≠
                  min (min hint2 (min (min hint BUFFER_SIZE) (src.length - spos)))
                    (dest.length - dpos) ∨
                (src.drop spos).take (min (min hint BUFFER_SIZE) (src.length - spos)) ≠
                  (dest.drop dpos).take
                    (min (min hint2 (min (min hint BUFFER_SIZE) (src.length - spos)))
                      (dest.length - dpos))
            · rw [verifyGo_step_mismatch _ _ _ _ _ _ _ _ _ _ _ _ _ hcf hr rfl h0 hr2 rfl hbad]
              exact ⟨[], [.Error ("Verification failed")], by simp [cumulEvents], by simp,
                Or.inr ⟨rfl, .Error ("Verification failed"), rfl,
                  Or.inr ⟨"Verification failed", rfl⟩⟩⟩
            · rw [verifyGo_step_match _ _ _ _ _ _ _ _ _ _ _ _ _ hcf hr rfl h0 hr2 rfl hbad]
              obtain ⟨ns, rest, hev, hns, hout⟩ := ih (spos + min (min hint BUFFER_SIZE)
                (src.length - spos)) (dpos + min (min hint2 (min (min hint BUFFER_SIZE)
                (src.length - spos))) (dest.length - dpos))
                (checked + min (min hint BUFFER_SIZE) (src.length - spos)) total (i + 1)
              refine ⟨min (min hint BUFFER_SIZE) (src.length - spos) :: ns, rest, ?_, ?_, ?_⟩
              · simp only [cumulEvents, List.cons_append]
                rw [hev]
              · intro n hn
                rcases List.mem_cons.mp hn with h | h
                · subst h
                  constructor
                  · omega
                  · calc min (min hint BUFFER_SIZE) (src.length - spos)
                        ≤ min hint BUFFER_SIZE := Nat.min_le_left _ _
                      _ ≤ BUFFER_SIZE := Nat.min_le_right _ _
                · exact hns n h
              · exact hout

lemma take_drop_append_eq (src tail : List Byte) (p n : Nat) (h : p + n ≤ src.length) :
    ((src ++ tail).drop p).take n = (src.drop p).take n := by
  apply List.ext_getElem?
  intro id
  by_cases hid : id < n
  · rw [List.getElem?_take_of_lt hid, List.getElem?_take_of_lt hid,
      List.getElem?_drop, List.getElem?_drop, List.getElem?_append_left (by omega)]
  · rw [List.getElem?_take_eq_none (by omega), List.getElem?_take_eq_none (by omega)]

lemma verifyGo_identical (src dest : List Byte) (e : VerifyEnv) (tail : List Byte)
    (hdest : dest = src ++ tail)
    (hc : ∀ k, e.vCancel k = false)
    (h1 : ∀ k, e.vIsoRead k = .ok BUFFER_SIZE)
    (h2 : ∀ k, e.vDevRead k = .ok BUFFER_SIZE) :
    ∀ (fuel spos checked total i : Nat), src.length - spos < fuel →
      ∃ vs, verifyGo src dest e fuel spos spos checked total i = (vs, true) ∧
        vs.length = numChunks (src.length - spos) ∧
        ∀ x ∈ vs, isVerifying x = true := by
  intro fuel
  induction fuel with
  | zero =>
    intro spos checked total i hfuel
    omega
  | succ fuel ih =>
    intro spos checked total i hfuel
    have hB := BUFFER_SIZE_pos
    by_cases hempty : src.length - spos = 0
    · have h0 : min (min BUFFER_SIZE BUFFER_SIZE) (src.length - spos) = 0 := by
        rw [Nat.min_self, hempty, Nat.min_zero]
      rw [verifyGo_step_eof _ _ _ _ _ _ _ _ _ _ (hc i) (h1 i) h0]
      refine ⟨[], rfl, ?_, by simp⟩
      rw [hempty, numChunks_zero]
      rfl
    · have hcase : min BUFFER_SIZE (src.length - spos) = BUFFER_SIZE ∧
          BUFFER_SIZE ≤ src.length - spos ∨
          min BUFFER_SIZE (src.length - spos) = src.length - spos ∧
          src.length - spos ≤ BUFFER_SIZE := by
        rcases Nat.le_total BUFFER_SIZE (src.length - spos) with h | h
        · exact Or.inl ⟨Nat.min_eq_left h, h⟩
        · exact Or.inr ⟨Nat.min_eq_right h, h⟩
      have hn1pos : 0 < min BUFFER_SIZE (src.length - spos) := by
        rcases hcase with ⟨hq, hr⟩ | ⟨hq, hr⟩ <;> omega
      have hn1le : min BUFFER_SIZE (src.length - spos) ≤ src.length - spos := by
        rcases hcase with ⟨hq, hr⟩ | ⟨hq, hr⟩ <;> omega
      have hn1B : min BUFFER_SIZE (src.length - spos) ≤ BUFFER_SIZE := by
        rcases hcase with ⟨hq, hr⟩ | ⟨hq, hr⟩ <;> omega
      have hn1 : min (min BUFFER_SIZE BUFFER_SIZE) (src.length - spos) =
          min BUFFER_SIZE (src.length - spos) := by rw [Nat.min_self]
      have hdlen : dest.length = src.length + tail.length := by
        rw [hdest, List.length_append]
      have hn2 : min (min BUFFER_SIZE (min BUFFER_SIZE (src.length - spos)))
          (dest.length - spos) = min BUFFER_SIZE (src.length - spos) := by
        rw [Nat.min_eq_right hn1B, Nat.min_eq_left (by omega)]
      have hsl : (src.drop spos).take (min BUFFER_SIZE (src.length - spos)) =
          (dest.drop spos).take (min BUFFER_SIZE (src.length - spos)) := by
        rw [hdest]
        exact (take_drop_append_eq src tail spos _ (by omega)).symm
      have hgood : ¬(min BUFFER_SIZE (src.length - spos) ≠
            min BUFFER_SIZE (src.length - spos) ∨
          (src.drop spos).take (min BUFFER_SIZE (src.length - spos)) ≠
            (dest.drop spos).take (min BUFFER_SIZE (src.length - spos))) := by
        rw [not_or]
        exact ⟨fun h => h rfl, fun h => h hsl⟩
      rw [verifyGo_step_match src dest e fuel spos spos checked total i BUFFER_SIZE BUFFER_SIZE
        (min BUFFER_SIZE (src.length - spos)) (min BUFFER_SIZE (src.length - spos))
        (hc i) (h1 i) hn1 (by omega) (h2 i) hn2 hgood]
      obtain ⟨vs2, hrec, hlen2, hall2⟩ := ih (spos + min BUFFER_SIZE (src.length - spos))
        (checked + min BUFFER_SIZE (src.length - spos)) total (i + 1) (by omega)
      rw [hrec]
      refine ⟨.Verifying (checked + min BUFFER_SIZE (src.length - spos)) total :: vs2,
        rfl, ?_, ?_⟩
      · simp only [List.length_cons, hlen2]
        have hpos0 : 0 < src.length - spos := by omega
        conv_rhs => rw [numChunks_pos hpos0]
        have harg : src.length - (spos + min BUFFER_SIZE (src.length - spos)) =
            src.length - spos - BUFFER_SIZE := by
          rcases hcase with ⟨hq, hr⟩ | ⟨hq, hr⟩ <;> omega
        rw [harg]
      · intro x hx
        rcases List.mem_cons.mp hx with h | h
        · subst h
          rfl
        · exact hall2 x h

lemma verify_mismatch_aux (src dest : List Byte) (e : VerifyEnv) (k0 : Nat)
    (hc : ∀ k, e.vCancel k = false)
    (h1 : ∀ k, e.vIsoRead k = .ok BUFFER_SIZE)
    (h2 : ∀ k, e.vDevRead k = .ok BUFFER_SIZE)
    (hk : diffAt src dest k0)
    (hleast : ∀ k, k < k0 → ¬ diffAt src dest k) :
    ∀ (fuel j checked total i : Nat),
      src.length - j * BUFFER_SIZE < fuel → j * BUFFER_SIZE ≤ k0 →
      ∃ vs,
        verifyGo src dest e fuel (j * BUFFER_SIZE) (j * BUFFER_SIZE) checked total i =
          (vs ++ [.Error ("Verification failed")], false) ∧
        vs.length = k0 / BUFFER_SIZE - j ∧
        ∀ x ∈ vs, isVerifying x = true := by
  have hB := BUFFER_SIZE_pos
  have hk0len : k0 < src.length := hk.1
  have hmatch : ∀ k, k < k0 → src[k]? = dest[k]? := by
    intro k hkk
    by_contra hne
    exact hleast k hkk ⟨by omega, hne⟩
  intro fuel
  induction fuel with
  | zero =>
    intro j checked total i hfuel hjk
    omega
  | succ fuel ih =>
    intro j checked total i hfuel hjk
    have hppos : 0 < src.length - j * BUFFER_SIZE := by omega
    have hcase : min BUFFER_SIZE (src.length - j * BUFFER_SIZE) = BUFFER_SIZE ∧
        BUFFER_SIZE ≤ src.length - j * BUFFER_SIZE ∨
        min BUFFER_SIZE (src.length - j * BUFFER_SIZE) = src.length - j * BUFFER_SIZE ∧
        src.length - j * BUFFER_SIZE ≤ BUFFER_SIZE := by
      rcases Nat.le_total BUFFER_SIZE (src.length - j * BUFFER_SIZE) with h | h
      · exact Or.inl ⟨Nat.min_eq_left h, h⟩
      · exact Or.inr ⟨Nat.min_eq_right h, h⟩
    have hn1pos : 0 < min BUFFER_SIZE (src.length - j * BUFFER_SIZE) := by
      rcases hcase with ⟨hq, hr⟩ | ⟨hq, hr⟩ <;> omega
    have hn1le : min BUFFER_SIZE (src.length - j * BUFFER_SIZE) ≤
        src.length - j * BUFFER_SIZE := by
      rcases hcase with ⟨hq, hr⟩ | ⟨hq, hr⟩ <;> omega
    have hn1B : min BUFFER_SIZE (src.length - j * BUFFER_SIZE) ≤ BUFFER_SIZE := by
      rcases hcase with ⟨hq, hr⟩ | ⟨hq, hr⟩ <;> omega
    have hn1 : min (min BUFFER_SIZE BUFFER_SIZE) (src.length - j * BUFFER_SIZE) =
        min BUFFER_SIZE (src.length - j * BUFFER_SIZE) := by rw [Nat.min_self]
    by_cases herr : k0 < j * BUFFER_SIZE + min BUFFER_SIZE (src.length - j * BUFFER_SIZE)
    · -- the mismatch lies inside the current chunk: the comparison fails here
      have hdiv : k0 / BUFFER_SIZE = j :=
        Nat.div_eq_of_lt_le hjk (by rw [Nat.succ_mul]; omega)
      have hbad : min BUFFER_SIZE (src.length - j * BUFFER_SIZE) ≠
            min (min BUFFER_SIZE (min BUFFER_SIZE (src.length - j * BUFFER_SIZE)))
              (dest.length - j * BUFFER_SIZE) ∨
          (src.drop (j * BUFFER_SIZE)).take (min BUFFER_SIZE
              (src.length - j * BUFFER_SIZE)) ≠
            (dest.drop (j * BUFFER_SIZE)).take
              (min (min BUFFER_SIZE (min BUFFER_SIZE (src.length - j * BUFFER_SIZE)))
                (dest.length - j * BUFFER_SIZE)) := by
        by_cases hn : min BUFFER_SIZE (src.length - j * BUFFER_SIZE) =
            min (min BUFFER_SIZE (min BUFFER_SIZE (src.length - j * BUFFER_SIZE)))
              (dest.length - j * BUFFER_SIZE)
        · right
          intro hEq
          have e1 : ((src.drop (j * BUFFER_SIZE)).take (min BUFFER_SIZE
              (src.length - j * BUFFER_SIZE)))[k0 - j * BUFFER_SIZE]? = src[k0]? := by
            rw [List.getElem?_take_of_lt (by omega), List.getElem?_drop]
            congr 1
            omega
          have e2 : ((dest.drop (j * BUFFER_SIZE)).take
              (min (min BUFFER_SIZE (min BUFFER_SIZE (src.length - j * BUFFER_SIZE)))
                (dest.length - j * BUFFER_SIZE)))[k0 - j * BUFFER_SIZE]? = dest[k0]? := by
            rw [List.getElem?_take_of_lt (by rw [← hn]; omega), List.getElem?_drop]
            congr 1
            omega
          rw [hEq] at e1
          exact hk.2 (e1.symm.trans e2)
        · exact Or.inl hn
      rw [verifyGo_step_mismatch src dest e fuel (j * BUFFER_SIZE) (j * BUFFER_SIZE)
        checked total i BUFFER_SIZE BUFFER_SIZE
        (min BUFFER_SIZE (src.length - j * BUFFER_SIZE))
        (min (min BUFFER_SIZE (min BUFFER_SIZE (src.length - j * BUFFER_SIZE)))
          (dest.length - j * BUFFER_SIZE))
        (hc i) (h1 i) hn1 (by omega) (h2 i) rfl hbad]
      refine ⟨[], by simp, ?_, by simp⟩
      rw [hdiv]
      simp
    · -- the whole current chunk still matches: one Verifying event and recurse
      have hnext : j * BUFFER_SIZE + min BUFFER_SIZE (src.length - j * BUFFER_SIZE) ≤ k0 := by
        omega
      have hn1eqB : min BUFFER_SIZE (src.length - j * BUFFER_SIZE) = BUFFER_SIZE := by
        rcases hcase with ⟨hq, hr⟩ | ⟨hq, hr⟩
        · exact hq
        · omega
      have hbound : j * BUFFER_SIZE + min BUFFER_SIZE (src.length - j * BUFFER_SIZE) ≤
          dest.length := by
        have hdd := hmatch (j * BUFFER_SIZE +
          min BUFFER_SIZE (src.length - j * BUFFER_SIZE) - 1) (by omega)
        rw [List.getElem?_eq_getElem (by omega)] at hdd
        rcases List.getElem?_eq_some_iff.mp hdd.symm with ⟨hb, _⟩
        omega
      have hn2 : min (min BUFFER_SIZE (min BUFFER_SIZE (src.length - j * BUFFER_SIZE)))
          (dest.length - j * BUFFER_SIZE) =
          min BUFFER_SIZE (src.length - j * BUFFER_SIZE) := by
        rw [Nat.min_eq_right hn1B, Nat.min_eq_left (by omega)]
      have hsl : (src.drop (j * BUFFER_SIZE)).take (min BUFFER_SIZE
            (src.length - j * BUFFER_SIZE)) =
          (dest.drop (j * BUFFER_SIZE)).take (min BUFFER_SIZE
            (src.length - j * BUFFER_SIZE)) := by
        apply List.ext_getElem?
        intro id
        by_cases hid : id < min BUFFER_SIZE (src.length - j * BUFFER_SIZE)
        · rw [List.getElem?_take_of_lt hid, List.getElem?_take_of_lt hid,
            List.getElem?_drop, List.getElem?_drop]
          exact hmatch (j * BUFFER_SIZE + id) (by omega)
        · rw [List.getElem?_take_eq_none (by omega), List.getElem?_take_eq_none (by omega)]
      have hgood : ¬(min BUFFER_SIZE (src.length - j * BUFFER_SIZE) ≠
            min BUFFER_SIZE (src.length - j * BUFFER_SIZE) ∨
          (src.drop (j * BUFFER_SIZE)).take (min BUFFER_SIZE
              (src.length - j * BUFFER_SIZE)) ≠
            (dest.drop (j * BUFFER_SIZE)).take (min BUFFER_SIZE
              (src.length - j * BUFFER_SIZE))) := by
        rw [not_or]
        exact ⟨fun h => h rfl, fun h => h hsl⟩
      have hstep := verifyGo_step_match src dest e fuel (j * BUFFER_SIZE) (j * BUFFER_SIZE)
        checked total i BUFFER_SIZE BUFFER_SIZE
        (min BUFFER_SIZE (src.length - j * BUFFER_SIZE))
        (min BUFFER_SIZE (src.length - j * BUFFER_SIZE))
        (hc i) (h1 i) hn1 (by omega) (h2 i) hn2 hgood
      have hpos2 : j * BUFFER_SIZE + min BUFFER_SIZE (src.length - j * BUFFER_SIZE) =
          (j + 1) * BUFFER_SIZE := by
        rw [Nat.succ_mul, hn1eqB]
      obtain ⟨vs2, hrec, hlen2, hall2⟩ := ih (j + 1)
        (checked + min BUFFER_SIZE (src.length - j * BUFFER_SIZE)) total (i + 1)
        (by rw [Nat.succ_mul]; omega) (by rw [Nat.succ_mul]; omega)
      rw [← hpos2] at hrec
      rw [hstep, hrec]
      have hq1 : j + 1 ≤ k0 / BUFFER_SIZE :=
        (Nat.le_div_iff_mul_le hB).mpr (by rw [Nat.succ_mul]; omega)
      refine ⟨.Verifying (checked + min BUFFER_SIZE (src.length - j * BUFFER_SIZE)) total ::
        vs2, by simp, ?_, ?_⟩
      · simp only [List.length_cons, hlen2]
        omega
      · intro x hx
        rcases List.mem_cons.mp hx with h | h
        · subst h
          rfl
        · exact hall2 x h

lemma verifyImage_isoErr (src dest : List Byte) (e : VerifyEnv) (m : String)
    (h : e.vIsoOpenErr = some m) : verifyImage src dest e = ([.Error m], false) := by
  rw [verifyImage, h]

lemma verifyImage_devErr (src dest : List Byte) (e : VerifyEnv) (m : String)
    (h0 : e.vIsoOpenErr = none) (h : e.vDevOpenErr = some m) :
    verifyImage src dest e = ([.Error m], false) := by
  rw [verifyImage, h0, h]

lemma verifyImage_open_ok (src dest : List Byte) (e : VerifyEnv)
    (h0 : e.vIsoOpenErr = none) (h1 : e.vDevOpenErr = none) :
    verifyImage src dest e =
      verifyGo src dest e (src.length + 1) 0 0 0
        (if e.vMetaOk then src.length else 0) 0 := by
  rw [verifyImage, h0, h1]

lemma verifyImage_shape (src dest : List Byte) (e : VerifyEnv) :
    ∃ ns rest,
      (verifyImage src dest e).1 =
        cumulEvents 0 ns (if e.vMetaOk then src.length else 0) ++ rest ∧
      (∀ n ∈ ns, 0 < n ∧ n ≤ BUFFER_SIZE) ∧
      (((verifyImage src dest e).2 = true ∧ rest = []) ∨
        ((verifyImage src dest e).2 = false ∧
          ∃ t, rest = [t] ∧ (t = .Cancelled ∨ ∃ m, t = .Error m))) := by
  cases hi : e.vIsoOpenErr with
  | some m =>
    rw [verifyImage_isoErr src dest e m hi]
    exact ⟨[], [.Error m], by simp [cumulEvents], by simp,
      Or.inr ⟨rfl, .Error m, rfl, Or.inr ⟨m, rfl⟩⟩⟩
  | none =>
    cases hd : e.vDevOpenErr with
    | some m =>
      rw [verifyImage_devErr src dest e m hi hd]
      exact ⟨[], [.Error m], by simp [cumulEvents], by simp,
        Or.inr ⟨rfl, .Error m, rfl, Or.inr ⟨m, rfl⟩⟩⟩
    | none =>
      rw [verifyImage_open_ok src dest e hi hd]
      exact verifyGo_shape src dest e (src.length + 1) 0 0 0
        (if e.vMetaOk then src.length else 0) 0

lemma verifyImage_events_form (src dest : List Byte) (e : VerifyEnv) :
    ∀ ev ∈ (verifyImage src dest e).1,
      (∃ c t, ev = .Verifying c t) ∨ ev = .Cancelled ∨ ∃ m, ev = .Error m := by
  obtain ⟨ns, rest, hev, hns, hout⟩ := verifyImage_shape src dest e
  intro ev hmem
  rw [hev] at hmem
  rcases List.mem_append.mp hmem with h | h
  · rcases cumulEvents_mem h with ⟨c, rfl⟩
    exact Or.inl ⟨c, _, rfl⟩
  · rcases hout with ⟨_, hrest⟩ | ⟨_, t, hrest, ht⟩
    · rw [hrest] at h
      simp at h
    · rw [hrest] at h
      rcases List.mem_singleton.mp h with rfl
      rcases ht with rfl | ⟨m, rfl⟩
      · exact Or.inr (Or.inl rfl)
      · exact Or.inr (Or.inr ⟨m, rfl⟩)

lemma runBurnFull_setup_meta (env : RunEnv) (m : String) (h : env.metaErr = some m) :
    runBurnFull env = ([.Preparing, .Error m], env.dest0) := by
  rw [runBurnFull, h]

lemma runBurnFull_setup_iso (env : RunEnv) (m : String) (h0 : env.metaErr = none)
    (h : env.isoOpenErr = some m) :
    runBurnFull env = ([.Preparing, .Error m], env.dest0) := by
  rw [runBurnFull, h0, h]

lemma runBurnFull_setup_dev (env : RunEnv) (m : String) (h0 : env.metaErr = none)
    (h1 : env.isoOpenErr = none) (h : env.devOpenErr = some m) :
    runBurnFull env = ([.Preparing, .Error m], env.dest0) := by
  rw [runBurnFull, h0, h1, h]

lemma runBurnFull_abort (env : RunEnv) (h0 : env.metaErr = none)
    (h1 : env.isoOpenErr = none) (h2 : env.devOpenErr = none)
    (hd : (writerResult env).done = false) :
    runBurnFull env = (.Preparing :: (writerResult env).events, destWritten env) := by
  rw [runBurnFull, h0, h1, h2]
  simp [hd]

lemma runBurnFull_sync_err (env : RunEnv) (m : String) (h0 : env.metaErr = none)
    (h1 : env.isoOpenErr = none) (h2 : env.devOpenErr = none)
    (hd : (writerResult env).done = true) (hs : env.syncErr = some m) :
    runBurnFull env =
      (.Preparing :: (writerResult env).events ++ [.Error m], destWritten env) := by
  rw [runBurnFull, h0, h1, h2]
  simp [hd, hs]

lemma runBurnFull_no_verify (env : RunEnv) (h0 : env.metaErr = none)
    (h1 : env.isoOpenErr = none) (h2 : env.devOpenErr = none)
    (hd : (writerResult env).done = true) (hs : env.syncErr = none)
    (hv : env.verify = false) :
    runBurnFull env =
      (.Preparing :: (writerResult env).events ++ [.Finished], destWritten env) := by
  rw [runBurnFull, h0, h1, h2]
  simp [hd, hs, hv]

lemma runBurnFull_verify_true (env : RunEnv) (h0 : env.metaErr = none)
    (h1 : env.isoOpenErr = none) (h2 : env.devOpenErr = none)
    (hd : (writerResult env).done = true) (hs : env.syncErr = none)
    (hv : env.verify = true)
    (hok : (verifyImage env.src (destWritten env) env.vEnv).2 = true) :
    runBurnFull env =
      (.Preparing :: (writerResult env).events ++
        (verifyImage env.src (destWritten env) env.vEnv).1 ++ [.Finished],
        destWritten env) := by
  rw [runBurnFull, h0, h1, h2]
  simp [hd, hs, hv, hok]

lemma runBurnFull_verify_false (env : RunEnv) (h0 : env.metaErr = none)
    (h1 : env.isoOpenErr = none) (h2 : env.devOpenErr = none)
    (hd : (writerResult env).done = true) (hs : env.syncErr = none)
    (hv : env.verify = true)
    (hok : (verifyImage env.src (destWritten env) env.vEnv).2 = false) :
    runBurnFull env =
      (.Preparing :: (writerResult env).events ++
        (verifyImage env.src (destWritten env) env.vEnv).1,
        destWritten env) := by
  rw [runBurnFull, h0, h1, h2]
  simp [hd, hs, hv, hok]

lemma runBurn_shape (env : RunEnv) :
    ∃ mid t, (runBurnFull env).1 = .Preparing :: mid ++ [t] ∧
      (∀ ev ∈ mid, isTerminal ev = false) ∧ isTerminal t = true := by
  cases hm : env.metaErr with
  | some m =>
    rw [runBurnFull_setup_meta env m hm]
    exact ⟨[], .Error m, rfl, by simp, rfl⟩
  | none =>
  cases hiso : env.isoOpenErr with
  | some m =>
    rw [runBurnFull_setup_iso env m hm hiso]
    exact ⟨[], .Error m, rfl, by simp, rfl⟩
  | none =>
  cases hdev : env.devOpenErr with
  | some m =>
    rw [runBurnFull_setup_dev env m hm hiso hdev]
    exact ⟨[], .Error m, rfl, by simp, rfl⟩
  | none =>
  cases hdone : (writerResult env).done with
  | false =>
    rw [runBurnFull_abort env hm hiso hdev hdone]
    obtain ⟨front, t, hev, hfr, ht⟩ :=
      writerGo_abort_shape _ _ _ _ _ _ _ _ hdone
    have hev2 : (writerResult env).events = front ++ [t] := hev
    refine ⟨front, t, by simp [hev2], ?_, ?_⟩
    · intro ev hmem
      rcases hfr ev hmem with ⟨w, tt, sp, rfl⟩
      rfl
    · rcases ht with rfl | ⟨m, rfl⟩ <;> rfl
  | true =>
  have hwev : ∀ ev ∈ (writerResult env).events, isTerminal ev = false := by
    intro ev hmem
    rcases writerGo_done_events _ _ _ _ _ _ _ _ hdone ev hmem with ⟨w, t, sp, rfl⟩
    rfl
  cases hsync : env.syncErr with
  | some m =>
    rw [runBurnFull_sync_err env m hm hiso hdev hdone hsync]
    exact ⟨(writerResult env).events, .Error m, by simp, hwev, rfl⟩
  | none =>
  cases hverify : env.verify with
  | false =>
    rw [runBurnFull_no_verify env hm hiso hdev hdone hsync hverify]
    exact ⟨(writerResult env).events, .Finished, by simp, hwev, rfl⟩
  | true =>
  cases hok : (verifyImage env.src (destWritten env) env.vEnv).2 with
  | true =>
    rw [runBurnFull_verify_true env hm hiso hdev hdone hsync hverify hok]
    refine ⟨(writerResult env).events ++
      (verifyImage env.src (destWritten env) env.vEnv).1, .Finished, ?_, ?_, rfl⟩
    · simp
    · intro ev hmem
      rcases List.mem_append.mp hmem with h | h
      · exact hwev ev h
      · obtain ⟨ns, rest, hev2, hns, hout⟩ :=
          verifyImage_shape env.src (destWritten env) env.vEnv
        rcases hout with ⟨_, hrest⟩ | ⟨hfalse, _⟩
        · rw [hev2, hrest, List.append_nil] at h
          rcases cumulEvents_mem h with ⟨c, rfl⟩
          rfl
        · rw [hok] at hfalse
          simp at hfalse
  | false =>
    rw [runBurnFull_verify_false env hm hiso hdev hdone hsync hverify hok]
    obtain ⟨ns, rest, hev2, hns, hout⟩ :=
      verifyImage_shape env.src (destWritten env) env.vEnv
    rcases hout with ⟨htrue, _⟩ | ⟨_, t, hrest, ht⟩
    · rw [hok] at htrue
      simp at htrue
    · refine ⟨(writerResult env).events ++
        cumulEvents 0 ns (if env.vEnv.vMetaOk then env.src.length else 0), t, ?_, ?_, ?_⟩
      · rw [hev2, hrest]
        simp
      · intro ev hmem
        rcases List.mem_append.mp hmem with h | h
        · exact hwev ev h
        · rcases cumulEvents_mem h with ⟨c, rfl⟩
          rfl
      · rcases ht with rfl | ⟨m, rfl⟩ <;> rfl

lemma superRun_flag_irrel : ∀ (cmds : List EngineCommand) (a b : Bool),
    superRun cmds a = superRun cmds b := by
  intro cmds
  induction cmds with
  | nil => intro a b; rfl
  | cons c cs ih =>
    intro a b
    cases c with
    | start env => simp only [superRun, superStep]
    | cancel => simp only [superRun, superStep]

/-- C1: every `run_burn` call emits `Preparing` as its first event, emits
exactly one terminal event (`Finished`, `Cancelled` or `Error`), and that
terminal event is the last event of the operation — no further event for
the operation follows it; since the next operation again opens with
`Preparing`, nothing is emitted between a terminal event and the next
`Preparing`. -/
theorem c1_exactly_one_terminal (env : RunEnv) :
    ((runBurnFull env).1).head? = some .Preparing ∧
    ((runBurnFull env).1).countP isTerminal = 1 ∧
    (∃ t, ((runBurnFull env).1).getLast? = some t ∧ isTerminal t = true) ∧
    ∀ ev ∈ ((runBurnFull env).1).dropLast, isTerminal ev = false := by
  obtain ⟨mid, t, hev, hmid, ht⟩ := runBurn_shape env
  rw [hev]
  have hsplit : BurnEvent.Preparing :: mid ++ [t] =
      (BurnEvent.Preparing :: mid) ++ [t] := rfl
  refine ⟨rfl, ?_, ⟨t, ?_, ht⟩, ?_⟩
  · rw [hsplit, List.countP_append]
    have hzero : (BurnEvent.Preparing :: mid).countP isTerminal = 0 := by
      rw [List.countP_eq_zero]
      intro a ha
      rcases List.mem_cons.mp ha with rfl | ha2
      · simp [isTerminal]
      · simp [hmid a ha2]
    rw [hzero]
    simp [List.countP_cons, ht]
  · rw [hsplit]
    exact List.getLast?_concat _
  · rw [hsplit, List.dropLast_concat]
    intro ev hm
    rcases List.mem_cons.mp hm with rfl | hm2
    · rfl
    · exact hmid ev hm2

/-- C8: a `Cancel` command processed strictly before any `Start` emits no
events and merely sets the flag; the next `Start` stores `false` into the
flag before running the operation, so the behaviour of a `Start` does not
depend on the flag value it finds, and the event stream of the whole
command sequence is unchanged by the leading `Cancel`. -/
theorem c8_cancel_before_start (cmds : List EngineCommand) (f f2 : Bool) (env : RunEnv) :
    (superStep f .cancel).2 = [] ∧
    (superStep f .cancel).1 = true ∧
    superRun (.cancel :: cmds) f = superRun cmds f ∧
    superStep f (.start env) = superStep f2 (.start env) := by
  refine ⟨rfl, rfl, ?_, rfl⟩
  show (superStep f .cancel).2 ++ superRun cmds (superStep f .cancel).1 = superRun cmds f
  simp only [superStep, List.nil_append]
  exact superRun_flag_irrel cmds true f

/-- C5 counterexample: with a live receiver and the capacity-2 command
queue already full, the modelled `crossbeam_channel` send performed by
`BurnEngine.cancel` blocks the caller; the request is not dropped, so the
claim that a send onto a full queue is silently discarded fails. -/
theorem c5_full_queue_blocks :
    (engineCancel true [.cancel, .cancel]).1 = SendOutcome.blocked ∧
    SendOutcome.blocked ≠ SendOutcome.dropped := by
  constructor
  · rfl
  · decide

/-- C5 (amended): `start(config)` and `cancel()` never surface an error to
the caller — a send to a disconnected command queue (capacity 2) is
silently dropped — but a send onto a full, connected queue blocks the
caller until space appears instead of being dropped; only a queue with
free space accepts the request immediately. -/
theorem c5_send_semantics (q : List EngineCommand) (env : RunEnv) :
    (engineStart false q env = (.dropped, q)) ∧
    (engineCancel false q = (.dropped, q)) ∧
    (q.length < CMD_CAPACITY → engineStart true q env = (.delivered, q ++ [.start env])) ∧
    (q.length < CMD_CAPACITY → engineCancel true q = (.delivered, q ++ [.cancel])) ∧
    (CMD_CAPACITY ≤ q.length →
      (engineStart true q env).1 = .blocked ∧ (engineCancel true q).1 = .blocked) := by
  refine ⟨rfl, rfl, ?_, ?_, ?_⟩
  · intro h
    simp [engineStart, commandSend, h]
  · intro h
    simp [engineCancel, commandSend, h]
  · intro h
    constructor <;>
      simp [engineStart, engineCancel, commandSend, Nat.not_lt.mpr h]

/-- Witness for the amended C5 statement at concrete queues. -/
theorem c5_send_semantics_witness :
    ([] : List EngineCommand).length < CMD_CAPACITY ∧
    CMD_CAPACITY ≤ ([EngineCommand.cancel, EngineCommand.cancel] : List EngineCommand).length ∧
    engineCancel true [] = (.delivered, [.cancel]) ∧
    (engineCancel true [.cancel, .cancel]).1 = .blocked :=
  ⟨by decide, by decide,
    (c5_send_semantics [] baseEnv).2.2.2.1 (by decide),
    ((c5_send_semantics [EngineCommand.cancel, EngineCommand.cancel] baseEnv).2.2.2.2
      (by decide)).2⟩

/-- C4: if the writer observes the cancellation flag at some iteration `j`
before the chunk stream is exhausted (all earlier checks read false and all
earlier writes succeed), the operation's last event is `Cancelled`, no
`Verifying` and no `Finished` event is ever emitted, the device is left
holding a prefix of the source over its old content, and the run is
completely independent of the flush outcome and of the verification
environment — the flush and the verifier never run. -/
theorem c4_cancel_during_copy (env : RunEnv) (j : Nat)
    (h0 : env.metaErr = none) (h1 : env.isoOpenErr = none) (h2 : env.devOpenErr = none)
    (hb : ∀ k, k < j → env.writerCancel k = false ∧ env.writeStep k = .ok)
    (hcj : env.writerCancel j = true)
    (hj : j < (readerChunks env).length) :
    ((runBurnFull env).1).getLast? = some .Cancelled ∧
    (∀ c t, BurnEvent.Verifying c t ∉ (runBurnFull env).1) ∧
    BurnEvent.Finished ∉ (runBurnFull env).1 ∧
    (∃ w, w ≤ env.src.length ∧
      (runBurnFull env).2 = env.src.take w ++ env.dest0.drop w) ∧
    ∀ (s : Option String) (b : Bool) (v : VerifyEnv),
      runBurnFull { env with syncErr := s, verify := b, vEnv := v } = runBurnFull env := by
  have hb0 : ∀ k, k < j → env.writerCancel (0 + k) = false ∧ env.writeStep (0 + k) = .ok := by
    intro k hk
    rw [Nat.zero_add]
    exact hb k hk
  have hc0 : env.writerCancel (0 + j) = true := by
    rw [Nat.zero_add]
    exact hcj
  obtain ⟨hd, hby, front, hev, hfr⟩ := writerGo_cancel_at env.src.length env.writerCancel
    env.writeStep env.tick env.speed j (readerChunks env) 0 0 hb0 hc0 hj
  have hd2 : (writerResult env).done = false := hd
  have hev2 : (writerResult env).events = front ++ [.Cancelled] := hev
  have hby2 : (writerResult env).bytes = ((readerChunks env).take j).flatten := hby
  rw [runBurnFull_abort env h0 h1 h2 hd2]
  have hsplit : BurnEvent.Preparing :: (writerResult env).events =
      (BurnEvent.Preparing :: front) ++ [BurnEvent.Cancelled] := by
    rw [hev2]
    rfl
  refine ⟨?_, ?_, ?_, ?_, ?_⟩
  · show (BurnEvent.Preparing :: (writerResult env).events).getLast? = some .Cancelled
    rw [hsplit]
    exact List.getLast?_concat _
  · intro c t hmem
    simp only [hsplit] at hmem
    rcases List.mem_append.mp hmem with hmm | hmm
    · rcases List.mem_cons.mp hmm with heq | hmm2
      · cases heq
      · rcases hfr _ hmm2 with ⟨w, tt, sp, heq⟩
        cases heq
    · rcases List.mem_singleton.mp hmm
  · intro hmem
    simp only [hsplit] at hmem
    rcases List.mem_append.mp hmem with hmm | hmm
    · rcases List.mem_cons.mp hmm with heq | hmm2
      · cases heq
      · rcases hfr _ hmm2 with ⟨w, tt, sp, heq⟩
        cases heq
    · rcases List.mem_singleton.mp hmm
  · have hcf : ChunksFrom env.src 0 ((readerChunks env).take j) :=
      chunksFrom_take (readerChunks_chunksFrom env) j
    have hfl := chunksFrom_flatten hcf
    have hsum := chunksFrom_sumLens hcf
    refine ⟨sumLens ((readerChunks env).take j), by omega, ?_⟩
    show destWritten env = _
    rw [destWritten, destAfter, hby2, hfl]
    simp only [List.drop_zero]
    have hlen : (env.src.take (sumLens ((readerChunks env).take j))).length =
        sumLens ((readerChunks env).take j) := by
      simp [List.length_take]
      omega
    rw [hlen]
  · intro s b v
    have hwr2 : writerResult { env with syncErr := s, verify := b, vEnv := v } =
        writerResult env := rfl
    have hdw2 : destWritten { env with syncErr := s, verify := b, vEnv := v } =
        destWritten env := rfl
    rw [runBurnFull_abort { env with syncErr := s, verify := b, vEnv := v } h0 h1 h2 hd2,
      hwr2, hdw2]

/-- Witness for C4: a three-byte source whose writer sees the flag at its
first chunk. -/
theorem c4_cancel_during_copy_witness :
    ((runBurnFull envC4).1).getLast? = some .Cancelled ∧
    (∀ c t, BurnEvent.Verifying c t ∉ (runBurnFull envC4).1) ∧
    BurnEvent.Finished ∉ (runBurnFull envC4).1 ∧
    (∃ w, w ≤ envC4.src.length ∧
      (runBurnFull envC4).2 = envC4.src.take w ++ envC4.dest0.drop w) ∧
    ∀ (s : Option String) (b : Bool) (v : VerifyEnv),
      runBurnFull { envC4 with syncErr := s, verify := b, vEnv := v } = runBurnFull envC4 :=
  c4_cancel_during_copy envC4 0 rfl rfl rfl
    (fun k hk => absurd hk (Nat.not_lt_zero k)) rfl (by decide)

/-- C9: a read error inside the reader stage stops the reader silently —
the run is indistinguishable from one in which the same read returned
end-of-file — and with the rest of the pipeline healthy and verification
off the operation still completes through the writer's channel-closed path
with `Finished` and no `Error` event at all. -/
theorem c9_reader_error_silent (env : RunEnv) (j : Nat) (m : String)
    (h0 : env.metaErr = none) (h1 : env.isoOpenErr = none) (h2 : env.devOpenErr = none)
    (hrj : env.readerRead j = .err m)
    (hw : ∀ k, env.writerCancel k = false ∧ env.writeStep k = .ok)
    (hs : env.syncErr = none) (hv : env.verify = false) :
    runBurnFull env =
      runBurnFull { env with
        readerRead := fun k => if k = j then .ok 0 else env.readerRead k } ∧
    ((runBurnFull env).1).getLast? = some .Finished ∧
    ∀ m2, BurnEvent.Error m2 ∉ (runBurnFull env).1 := by
  have hchunks : readerChunks { env with
      readerRead := fun k => if k = j then .ok 0 else env.readerRead k } =
      readerChunks env :=
    readerGo_err_eq_eof env.src env.readerCancel env.readerRead j m hrj
      (env.src.length + 1) 0 0
  have hwr : writerResult { env with
      readerRead := fun k => if k = j then .ok 0 else env.readerRead k } =
      writerResult env := by
    show writerGo env.src.length env.writerCancel env.writeStep env.tick env.speed
      (readerChunks { env with
        readerRead := fun k => if k = j then .ok 0 else env.readerRead k }) 0 0 =
      writerResult env
    rw [hchunks]
    rfl
  obtain ⟨hdone, hbytes⟩ := writerGo_all_ok env.src.length env.writerCancel env.writeStep
    env.tick env.speed (fun k => (hw k).1) (fun k => (hw k).2) (readerChunks env) 0 0
  have hdone2 : (writerResult env).done = true := hdone
  have hdone3 : (writerResult { env with
      readerRead := fun k => if k = j then .ok 0 else env.readerRead k }).done = true := by
    rw [hwr]
    exact hdone2
  have hdw : destWritten { env with
      readerRead := fun k => if k = j then .ok 0 else env.readerRead k } =
      destWritten env := by
    rw [destWritten, destWritten, hwr]
  refine ⟨?_, ?_, ?_⟩
  · rw [runBurnFull_no_verify env h0 h1 h2 hdone2 hs hv,
      runBurnFull_no_verify { env with
        readerRead := fun k => if k = j then .ok 0 else env.readerRead k }
        h0 h1 h2 hdone3 hs hv,
      hwr, hdw]
  · rw [runBurnFull_no_verify env h0 h1 h2 hdone2 hs hv]
    show (BurnEvent.Preparing :: ((writerResult env).events ++ [.Finished])).getLast? = _
    rw [show BurnEvent.Preparing :: ((writerResult env).events ++ [.Finished]) =
      (BurnEvent.Preparing :: (writerResult env).events) ++ [BurnEvent.Finished] from rfl]
    exact List.getLast?_concat _
  · intro m2 hmem
    rw [runBurnFull_no_verify env h0 h1 h2 hdone2 hs hv] at hmem
    simp only [] at hmem
    rcases List.mem_cons.mp hmem with heq | hmm
    · cases heq
    · rcases List.mem_append.mp hmm with hmm2 | hmm2
      · rcases writerGo_done_events _ _ _ _ _ _ _ _ hdone2 _ hmm2 with ⟨w, t, sp, heq⟩
        cases heq
      · rcases List.mem_singleton.mp hmm2

/-- Witness for C9: the reader errors on its very first read, the writer
sees an immediately closed channel, and the run still finishes cleanly. -/
theorem c9_reader_error_silent_witness :
    runBurnFull envC9 =
      runBurnFull { envC9 with
        readerRead := fun k => if k = 0 then .ok 0 else envC9.readerRead k } ∧
    ((runBurnFull envC9).1).getLast? = some .Finished ∧
    ∀ m2, BurnEvent.Error m2 ∉ (runBurnFull envC9).1 :=
  c9_reader_error_silent envC9 0 ("io") rfl rfl rfl rfl
    (fun _ => ⟨rfl, rfl⟩) rfl rfl

lemma verifyImage_no_progress (src dest : List Byte) (e : VerifyEnv) :
    (verifyImage src dest e).1.filterMap progressOf = [] := by
  rw [List.filterMap_eq_nil_iff]
  intro a ha
  rcases verifyImage_events_form src dest e a ha with ⟨c, t, rfl⟩ | rfl | ⟨m, rfl⟩ <;> rfl

lemma runBurn_progress_decomp (env : RunEnv) :
    ((runBurnFull env).1).filterMap progressOf = [] ∨
    ((runBurnFull env).1).filterMap progressOf =
      ((writerResult env).events).filterMap progressOf := by
  cases hm : env.metaErr with
  | some m =>
    left
    rw [runBurnFull_setup_meta env m hm]
    rfl
  | none =>
  cases hiso : env.isoOpenErr with
  | some m =>
    left
    rw [runBurnFull_setup_iso env m hm hiso]
    rfl
  | none =>
  cases hdev : env.devOpenErr with
  | some m =>
    left
    rw [runBurnFull_setup_dev env m hm hiso hdev]
    rfl
  | none =>
  cases hdone : (writerResult env).done with
  | false =>
    right
    rw [runBurnFull_abort env hm hiso hdev hdone]
    simp only [List.filterMap_cons]
    rfl
  | true =>
  cases hsync : env.syncErr with
  | some m =>
    right
    rw [runBurnFull_sync_err env m hm hiso hdev hdone hsync]
    simp [List.filterMap_cons, List.filterMap_append, progressOf]
  | none =>
  cases hverify : env.verify with
  | false =>
    right
    rw [runBurnFull_no_verify env hm hiso hdev hdone hsync hverify]
    simp [List.filterMap_cons, List.filterMap_append, progressOf]
  | true =>
  cases hok : (verifyImage env.src (destWritten env) env.vEnv).2 with
  | true =>
    right
    rw [runBurnFull_verify_true env hm hiso hdev hdone hsync hverify hok]
    simp [List.filterMap_cons, List.filterMap_append, progressOf,
      verifyImage_no_progress env.src (destWritten env) env.vEnv]
  | false =>
    right
    rw [runBurnFull_verify_false env hm hiso hdev hdone hsync hverify hok]
    simp [List.filterMap_cons, List.filterMap_append, progressOf,
      verifyImage_no_progress env.src (destWritten env) env.vEnv]

/-- C6: within one operation the `written` values of successive `Progress`
events never decrease, and every `Progress` event satisfies
`written ≤ total` with `total` equal to the source size measured at the
start of the operation. -/
theorem c6_progress_monotone (env : RunEnv) :
    List.Chain' (fun a b => a.1 ≤ b.1) (((runBurnFull env).1).filterMap progressOf) ∧
    ∀ p ∈ ((runBurnFull env).1).filterMap progressOf,
      p.1 ≤ p.2 ∧ p.2 = env.src.length := by
  rcases runBurn_progress_decomp env with h | h
  · rw [h]
    exact ⟨List.chain'_nil, by simp⟩
  · rw [h]
    have hsum : sumLens (readerChunks env) ≤ env.src.length := by
      have h2 := chunksFrom_sumLens (readerChunks_chunksFrom env)
      omega
    obtain ⟨hch, hbd⟩ := writerGo_progress env.src.length env.writerCancel env.writeStep
      env.tick env.speed (readerChunks env) 0 0 (by omega)
    refine ⟨hch, ?_⟩
    intro p hp
    have h3 := hbd p hp
    refine ⟨?_, h3.2.2⟩
    rw [h3.2.2]
    exact h3.2.1

/-- C2: with the verify flag set and the whole pipeline healthy (no setup
errors, reads return full buffers, no cancellation observed, all writes and
the flush succeed, verification re-opens and re-reads both files without
I/O errors), the device after the write carries the source verbatim, the
operation ends with the terminal `Finished`, no `Error` is ever emitted,
and the verification pass emits one `Verifying` event per source chunk. -/
theorem c2_verified_burn_finishes (env : RunEnv)
    (h0 : env.metaErr = none) (h1 : env.isoOpenErr = none) (h2 : env.devOpenErr = none)
    (hrc : ∀ k, env.readerCancel k = false)
    (hrr : ∀ k, env.readerRead k = .ok BUFFER_SIZE)
    (hwc : ∀ k, env.writerCancel k = false)
    (hws : ∀ k, env.writeStep k = .ok)
    (hs : env.syncErr = none) (hv : env.verify = true)
    (hvi : env.vEnv.vIsoOpenErr = none) (hvd : env.vEnv.vDevOpenErr = none)
    (hvc : ∀ k, env.vEnv.vCancel k = false)
    (hv1 : ∀ k, env.vEnv.vIsoRead k = .ok BUFFER_SIZE)
    (hv2 : ∀ k, env.vEnv.vDevRead k = .ok BUFFER_SIZE) :
    (runBurnFull env).2 = env.src ++ env.dest0.drop env.src.length ∧
    ((runBurnFull env).1).getLast? = some .Finished ∧
    (∀ m, BurnEvent.Error m ∉ (runBurnFull env).1) ∧
    (((runBurnFull env).1).filter isVerifying).length = numChunks env.src.length := by
  have hflat : (readerChunks env).flatten = env.src := by
    have h3 := readerGo_nominal_flatten env.src env.readerCancel env.readerRead hrc hrr
      (env.src.length + 1) 0 0 (by omega)
    simpa using h3
  obtain ⟨hdone, hbytes⟩ := writerGo_all_ok env.src.length env.writerCancel env.writeStep
    env.tick env.speed hwc hws (readerChunks env) 0 0
  have hdone2 : (writerResult env).done = true := hdone
  have hbytes2 : (writerResult env).bytes = env.src := by
    have h4 : (writerResult env).bytes = (readerChunks env).flatten := hbytes
    rw [h4, hflat]
  have hdest : destWritten env = env.src ++ env.dest0.drop env.src.length := by
    rw [destWritten, destAfter, hbytes2]
  obtain ⟨vs, hvgo, hvslen, hvsall⟩ := verifyGo_identical env.src (destWritten env) env.vEnv
    (env.dest0.drop env.src.length) hdest hvc hv1 hv2
    (env.src.length + 1) 0 0 (if env.vEnv.vMetaOk then env.src.length else 0) 0 (by omega)
  have hvimg : verifyImage env.src (destWritten env) env.vEnv = (vs, true) := by
    rw [verifyImage_open_ok _ _ _ hvi hvd]
    exact hvgo
  have hok : (verifyImage env.src (destWritten env) env.vEnv).2 = true := by
    rw [hvimg]
  have hwev := writerGo_done_events env.src.length env.writerCancel env.writeStep
    env.tick env.speed (readerChunks env) 0 0 hdone2
  rw [runBurnFull_verify_true env h0 h1 h2 hdone2 hs hv hok, hvimg]
  refine ⟨hdest, ?_, ?_, ?_⟩
  · show (BurnEvent.Preparing ::
      ((writerResult env).events ++ (vs, true).1 ++ [BurnEvent.Finished])).getLast? = _
    rw [show BurnEvent.Preparing ::
        ((writerResult env).events ++ (vs, true).1 ++ [BurnEvent.Finished]) =
      (BurnEvent.Preparing :: ((writerResult env).events ++ (vs, true).1)) ++
        [BurnEvent.Finished] from rfl]
    exact List.getLast?_concat _
  · intro m hmem
    simp only [] at hmem
    rcases List.mem_cons.mp hmem with heq | hmm
    · cases heq
    · rcases List.mem_append.mp hmm with hmm2 | hmm2
      · rcases List.mem_append.mp hmm2 with hmm3 | hmm3
        · rcases hwev _ hmm3 with ⟨w, t, sp, heq⟩
          cases heq
        · have h5 := hvsall _ hmm3
          simp [isVerifying] at h5
      · rcases List.mem_singleton.mp hmm2
  · show ((BurnEvent.Preparing ::
      ((writerResult env).events ++ (vs, true).1 ++ [BurnEvent.Finished])).filter
        isVerifying).length = _
    have hwnil : ((writerResult env).events).filter isVerifying = [] := by
      rw [List.filter_eq_nil_iff]
      intro a ha
      rcases hwev _ ha with ⟨w, t, sp, rfl⟩
      simp [isVerifying]
    have hvall : vs.filter isVerifying = vs := List.filter_eq_self.mpr hvsall
    simp only [List.filter_cons, List.filter_append, hwnil, hvall]
    simp only [isVerifying, List.filter_cons, List.filter_nil]
    simp only [Bool.false_eq_true, if_false, List.nil_append, List.append_nil]
    rw [hvslen, Nat.sub_zero]

/-- Witness for C2: a two-byte image verified onto a three-byte device. -/
theorem c2_verified_burn_finishes_witness :
    (runBurnFull envC2).2 = envC2.src ++ envC2.dest0.drop envC2.src.length ∧
    ((runBurnFull envC2).1).getLast? = some .Finished ∧
    (∀ m, BurnEvent.Error m ∉ (runBurnFull envC2).1) ∧
    (((runBurnFull envC2).1).filter isVerifying).length = numChunks envC2.src.length :=
  c2_verified_burn_finishes envC2 rfl rfl rfl (fun _ => rfl) (fun _ => rfl)
    (fun _ => rfl) (fun _ => rfl) rfl rfl rfl rfl (fun _ => rfl) (fun _ => rfl)
    (fun _ => rfl)

/-- C7 (amended): during verification every event other than a single final
terminal event is a `Verifying` event, emitted once per successful chunk
comparison (no throttling) with `checked` equal to the cumulative byte
count compared so far; its `total` field equals the source size as
re-measured at the start of verification when that metadata query
succeeds, and `0` when it fails. -/
theorem c7_verifying_cumulative (src dest : List Byte) (e : VerifyEnv) :
    ∃ ns rest,
      (verifyImage src dest e).1 =
        cumulEvents 0 ns (if e.vMetaOk then src.length else 0) ++ rest ∧
      (∀ n ∈ ns, 0 < n ∧ n ≤ BUFFER_SIZE) ∧
      (rest = [] ∨ ∃ t, rest = [t] ∧ isTerminal t = true ∧ isVerifying t = false) := by
  obtain ⟨ns, rest, hev, hns, hout⟩ := verifyImage_shape src dest e
  refine ⟨ns, rest, hev, hns, ?_⟩
  rcases hout with ⟨_, hrest⟩ | ⟨_, t, hrest, ht⟩
  · exact Or.inl hrest
  · refine Or.inr ⟨t, hrest, ?_, ?_⟩
    · rcases ht with rfl | ⟨m, rfl⟩ <;> rfl
    · rcases ht with rfl | ⟨m, rfl⟩ <;> rfl

/-- C7 counterexample: when the fresh `fs::metadata` query at the start of
`verify_image` fails, `total` falls back to `unwrap_or(0)`: verifying a
one-byte source against an identical destination emits `Verifying` with
`total = 0`, not the source size `1`. -/
theorem c7_total_not_source_size :
    (verifyImage [3] [3] metaFailVerifyEnv).1 = [.Verifying 1 0] ∧
    ([3] : List Byte).length = 1 ∧ (0 : Nat) ≠ 1 := by
  refine ⟨?_, rfl, by decide⟩
  decide

/-- C10: if the single destination read of a verification iteration returns
fewer bytes than the source chunk, the comparison fails at once with
`Error("Verification failed")` and the pass aborts, even though the
destination content itself matches the source — no retry or re-read is
attempted. -/
theorem c10_short_device_read_fails (src dest tail : List Byte) (e : VerifyEnv) (m : Nat)
    (hdest : dest = src ++ tail)
    (hvi : e.vIsoOpenErr = none) (hvd : e.vDevOpenErr = none)
    (hc0 : e.vCancel 0 = false)
    (hr0 : e.vIsoRead 0 = .ok BUFFER_SIZE)
    (hd0 : e.vDevRead 0 = .ok m)
    (hm : m < min BUFFER_SIZE src.length) :
    verifyImage src dest e = ([.Error ("Verification failed")], false) := by
  have hmlen : m < src.length := lt_of_lt_of_le hm (Nat.min_le_right _ _)
  have hdlen : src.length ≤ dest.length := by
    rw [hdest, List.length_append]
    omega
  have hn1 : min (min BUFFER_SIZE BUFFER_SIZE) (src.length - 0) =
      min BUFFER_SIZE src.length := by
    rw [Nat.min_self, Nat.sub_zero]
  have hn2 : min (min m (min BUFFER_SIZE src.length)) (dest.length - 0) = m := by
    rw [Nat.sub_zero, Nat.min_eq_left (Nat.le_of_lt hm), Nat.min_eq_left (by omega)]
  have hbad : min BUFFER_SIZE src.length ≠ m ∨
      (src.drop 0).take (min BUFFER_SIZE src.length) ≠ (dest.drop 0).take m :=
    Or.inl (Ne.symm (Nat.ne_of_lt hm))
  rw [verifyImage_open_ok src dest e hvi hvd]
  exact verifyGo_step_mismatch src dest e src.length 0 0 0
    (if e.vMetaOk then src.length else 0) 0 BUFFER_SIZE m
    (min BUFFER_SIZE src.length) m hc0 hr0 hn1 (by omega) hd0 hn2 hbad

/-- Witness for C10: device read returns 0 of the 1 requested byte even
though source and destination are identical. -/
theorem c10_short_device_read_fails_witness :
    ([7] : List Byte) = [7] ++ ([] : List Byte) ∧
    (0 : Nat) < min BUFFER_SIZE ([7] : List Byte).length ∧
    verifyImage [7] [7] { nomVerifyEnv with vDevRead := fun _ => .ok 0 } =
      ([.Error ("Verification failed")], false) :=
  ⟨by simp, by decide,
    c10_short_device_read_fails [7] [7] [] { nomVerifyEnv with vDevRead := fun _ => .ok 0 }
      0 (by simp) rfl rfl rfl rfl rfl (by decide)⟩

/-- C3: when the destination differs from the source at a first offset `k0`
inside the source's length and the verification pass itself is healthy, it
emits one `Verifying` event per fully matching chunk — `k0 / BUFFER_SIZE`
of them — then `Error("Verification failed")` at the first chunk containing
the mismatch and aborts immediately (the event list has exactly
`k0 / BUFFER_SIZE + 1` entries, so no later mismatch is scanned), returns
failure, and `Finished` is not emitted — neither by the pass nor by any
`run_burn` whose verification stage is this failing pass. -/
theorem c3_mismatch_fails (src dest : List Byte) (e : VerifyEnv) (k0 : Nat)
    (hvi : e.vIsoOpenErr = none) (hvd : e.vDevOpenErr = none)
    (hc : ∀ k, e.vCancel k = false)
    (h1v : ∀ k, e.vIsoRead k = .ok BUFFER_SIZE)
    (h2v : ∀ k, e.vDevRead k = .ok BUFFER_SIZE)
    (hk : diffAt src dest k0)
    (hleast : ∀ k, k < k0 → ¬ diffAt src dest k) :
    (verifyImage src dest e).2 = false ∧
    ((verifyImage src dest e).1).getLast? = some (.Error ("Verification failed")) ∧
    BurnEvent.Finished ∉ (verifyImage src dest e).1 ∧
    (((verifyImage src dest e).1).filter isVerifying).length = k0 / BUFFER_SIZE ∧
    ((verifyImage src dest e).1).length = k0 / BUFFER_SIZE + 1 ∧
    ∀ env : RunEnv, env.metaErr = none → env.isoOpenErr = none → env.devOpenErr = none →
      (writerResult env).done = true → env.syncErr = none → env.verify = true →
      env.src = src → destWritten env = dest → env.vEnv = e →
      BurnEvent.Finished ∉ (runBurnFull env).1 := by
  obtain ⟨vs, hgo, hlen, hall⟩ := verify_mismatch_aux src dest e k0 hc h1v h2v hk hleast
    (src.length + 1) 0 0 (if e.vMetaOk then src.length else 0) 0
    (by rw [Nat.zero_mul]; omega) (by rw [Nat.zero_mul]; omega)
  rw [Nat.zero_mul] at hgo
  have hImg : verifyImage src dest e =
      (vs ++ [.Error ("Verification failed")], false) := by
    rw [verifyImage_open_ok src dest e hvi hvd]
    exact hgo
  have hfin : BurnEvent.Finished ∉ (verifyImage src dest e).1 := by
    rw [hImg]
    intro hmem
    rcases List.mem_append.mp hmem with hmm | hmm
    · have h5 := hall _ hmm
      simp [isVerifying] at h5
    · rcases List.mem_singleton.mp hmm
  refine ⟨by rw [hImg], ?_, hfin, ?_, ?_, ?_⟩
  · rw [hImg]
    exact List.getLast?_concat _
  · rw [hImg]
    show ((vs ++ [BurnEvent.Error ("Verification failed")]).filter isVerifying).length = _
    rw [List.filter_append, List.filter_eq_self.mpr hall]
    simp only [isVerifying, List.filter_cons, List.filter_nil]
    simp only [Bool.false_eq_true, if_false, List.append_nil, hlen, Nat.sub_zero]
  · rw [hImg]
    simp only [List.length_append, List.length_cons, List.length_nil, hlen, Nat.sub_zero]
  · intro env hm hiso hdev hdone hsync hverify hsrc hdst hve
    have hok : (verifyImage env.src (destWritten env) env.vEnv).2 = false := by
      rw [hsrc, hdst, hve, hImg]
    rw [runBurnFull_verify_false env hm hiso hdev hdone hsync hverify hok]
    intro hmem
    simp only [] at hmem
    rcases List.mem_cons.mp hmem with heq | hmm
    · cases heq
    · rcases List.mem_append.mp hmm with hmm2 | hmm2
      · rcases writerGo_done_events _ _ _ _ _ _ _ _ hdone _ hmm2 with ⟨w, t, sp, heq⟩
        cases heq
      · rw [hsrc, hdst, hve] at hmm2
        exact hfin hmm2

/-- Witness for C3: source `[1, 2]`, destination `[1, 9]`, first mismatch at
offset 1; the environment `envC3` reaches exactly this verification stage
after its reader stops early on a read error. -/
theorem c3_mismatch_fails_witness :
    (verifyImage [1, 2] [1, 9] nomVerifyEnv).2 = false ∧
    ((verifyImage [1, 2] [1, 9] nomVerifyEnv).1).getLast? =
      some (.Error ("Verification failed")) ∧
    (((verifyImage [1, 2] [1, 9] nomVerifyEnv).1).filter isVerifying).length =
      1 / BUFFER_SIZE ∧
    BurnEvent.Finished ∉ (runBurnFull envC3).1 := by
  have h := c3_mismatch_fails [1, 2] [1, 9] nomVerifyEnv 1 rfl rfl (fun _ => rfl)
    (fun _ => rfl) (fun _ => rfl) (by decide) (by decide)
  exact ⟨h.1, h.2.1, h.2.2.2.1,
    h.2.2.2.2.2 envC3 rfl rfl rfl (by decide) rfl rfl rfl (by decide) rfl⟩

end BurnModel
